import Mathlib

/-!
Verification of the Avro container writer in `src/main.py`.

Python integers are unbounded, so `n << 1` is exact doubling, `n >> k` is the
arithmetic (floor) shift, and `^`, `&`, `|` are bitwise operations on the
infinite twos-complement representation.  `Int.xor`, `Int.land`, `Int.lor`
and the `<<<`/`>>>` instances on `ℤ` from Mathlib have exactly these
semantics, so `int` is embedded as `ℤ` and `bytes` as `List Nat`.
Components realised by the `fastavro` library (record encoding, container
reading) are modelled from the specification document and carry a
`Modelled from the spec:` doc comment.
-/

/-- From `src/main.py`, `zigzag_encode`: `(n << 1) ^ (n >> 63 if n < 0 else 0)`
on Python unbounded integers. -/
def zigzag_encode (n : Int) : Int :=
  Int.xor (n <<< (1 : Int)) (if n < 0 then n >>> (63 : Int) else 0)

/-- From `src/main.py`, `varint_encode`: the loop emits `(value & 0x7F) | 0x80`
and shifts right by 7 while `value > 0x7F`, then appends the final value.
`bytearray.append` raises `ValueError` on a value outside `[0, 255]`, which
the model renders as `none`. -/
def varint_encode (value : Int) : Option (List Nat) :=
  if h : 0x7F < value then
    let b := Int.lor (Int.land value 0x7F) 0x80
    if 0 ≤ b ∧ b ≤ 255 then
      (varint_encode (value >>> (7 : Int))).map (fun rest => b.toNat :: rest)
    else none
  else
    if 0 ≤ value ∧ value ≤ 255 then some [value.toNat] else none
termination_by value.toNat
decreasing_by
  have hv : (0 : Int) ≤ value := by omega
  have hm : value = ((value.toNat : Nat) : Int) := (Int.toNat_of_nonneg hv).symm
  have h127 : 127 < value.toNat := by omega
  calc (value >>> (7 : Int)).toNat
      = ((((value.toNat : Nat) : Int)) >>> (((7 : Nat) : Int))).toNat := by rw [← hm]; rfl
    _ = value.toNat >>> 7 := by rw [Int.shiftRight_coe_nat]; exact Int.toNat_natCast _
    _ = value.toNat / 2 ^ 7 := Nat.shiftRight_eq_div_pow _ _
    _ < value.toNat := Nat.div_lt_self (by omega) (by norm_num)

/-- From `src/main.py`, `encode_zigzag_varint`: zigzag then varint. -/
def encode_zigzag_varint (n : Int) : Option (List Nat) :=
  varint_encode (zigzag_encode n)

/-- Fuel-driven loop of the arithmetic varint encoder; `fuel ≥ u` always
suffices, and the fallback agrees with the terminal branch so the result is
fuel-independent (proved below).  Structural recursion keeps the definition
kernel-reducible for concrete evaluation. -/
def varintNatAux : Nat → Nat → List Nat
  | 0, u => [u]
  | fuel + 1, u => if 0x7F < u then (u % 128 + 128) :: varintNatAux fuel (u / 128) else [u]

/-- The byte list `varint_encode` produces on a non-negative input, expressed
arithmetically over `Nat` (proved equivalent below). -/
def varintNat (u : Nat) : List Nat :=
  varintNatAux u u

/-- The value represented by a list of varint bytes read as 7-bit groups,
low-order group first. -/
def groupsValue (bs : List Nat) : Nat :=
  bs.foldr (fun b acc => (b &&& 0x7F) + 128 * acc) 0

/-- Total form of `encode_zigzag_varint` (which never fails, proved below). -/
def ezv (n : Int) : List Nat :=
  varintNat (zigzag_encode n).toNat

/-- Modelled from the spec: `varintDecode` (§4.1), reading 7-bit groups
low-order first until a byte with a clear continuation bit, failing
(`MalformedVarint`) if no terminator appears within `maxBytes` bytes or the
input is exhausted mid-sequence.  Returns the value and the remaining input. -/
def varintDecodeAux : Nat → List Nat → Option (Nat × List Nat)
  | 0, _ => none
  | _ + 1, [] => none
  | maxBytes + 1, b :: rest =>
    if b &&& 0x80 = 0 then some (b &&& 0x7F, rest)
    else
      match varintDecodeAux maxBytes rest with
      | some (v, r) => some ((b &&& 0x7F) + 128 * v, r)
      | none => none

/-- Modelled from the spec: `varintDecode` with the 10-byte maximum for a
64-bit integer. -/
def varint_decode (bs : List Nat) : Option (Nat × List Nat) :=
  varintDecodeAux 10 bs

/-- Modelled from the spec: `zigzagDecode` (§4.1), the exact inverse of
`zigzagEncode`: even values come from non-negative integers, odd ones from
negative integers. -/
def zigzag_decode (u : Nat) : Int :=
  if u % 2 = 0 then ((u / 2 : Nat) : Int) else -((u / 2 : Nat) : Int) - 1

/-- Modelled from the spec: decoding one zigzag-varint long from a byte
stream (varint decode then zigzag inverse). -/
def zv_decode (bs : List Nat) : Option (Int × List Nat) :=
  (varint_decode bs).bind (fun p => some (zigzag_decode p.1, p.2))


/-- Modelled from the spec: a record of the fixed `User` schema
(`name: string`, `favorite_number: ["int","null"]`,
`favorite_color: ["string","null"]`).  Strings are carried as their UTF-8
byte sequences. -/
structure UserRecord where
  name : List Nat
  favorite_number : Option Int
  favorite_color : Option (List Nat)
deriving DecidableEq

/-- Modelled from the spec: the RecordEncoder (spec 4.2) specialised to the
`User` schema, as `fastavro.schemaless_writer` realises it.  A string field
is a zigzag-varint byte length followed by the raw bytes; a nullable union
field is the zigzag-varint branch index in declaration order (value branch
0, null branch 1) followed by the branch payload (nothing for null). -/
def encodeRecord (r : UserRecord) : List Nat :=
  (ezv (r.name.length : Int) ++ r.name) ++
  ((match r.favorite_number with
    | some v => ezv 0 ++ ezv v
    | none => ezv 1) ++
  (match r.favorite_color with
    | some s => ezv 0 ++ (ezv (s.length : Int) ++ s)
    | none => ezv 1))

/-- Modelled from the spec: decoding one length-prefixed string (inverse of
the string-field encoding). -/
def decodeStringField (bs : List Nat) : Option (List Nat × List Nat) :=
  (zv_decode bs).bind (fun p =>
    if 0 ≤ p.1 ∧ p.1.toNat ≤ p.2.length then
      some (p.2.take p.1.toNat, p.2.drop p.1.toNat)
    else none)

/-- Modelled from the spec: decoding the `["int","null"]` union field
(branch index then payload, branch order positional). -/
def decodeNumberField (bs : List Nat) : Option (Option Int × List Nat) :=
  (zv_decode bs).bind (fun p =>
    if p.1 = 0 then (zv_decode p.2).bind (fun q => some (some q.1, q.2))
    else if p.1 = 1 then some (none, p.2)
    else none)

/-- Modelled from the spec: decoding the `["string","null"]` union field. -/
def decodeColorField (bs : List Nat) : Option (Option (List Nat) × List Nat) :=
  (zv_decode bs).bind (fun p =>
    if p.1 = 0 then (decodeStringField p.2).bind (fun q => some (some q.1, q.2))
    else if p.1 = 1 then some (none, p.2)
    else none)

/-- Modelled from the spec: inverse of `encodeRecord` (the ContainerReader
decodes records via the inverse of spec 4.2). -/
def decodeRecord (bs : List Nat) : Option (UserRecord × List Nat) :=
  (decodeStringField bs).bind (fun pn =>
    (decodeNumberField pn.2).bind (fun pv =>
      (decodeColorField pv.2).bind (fun pc =>
        some (⟨pn.1, pv.1, pc.1⟩, pc.2))))

/-- Modelled from the spec: decode exactly `n` consecutive records. -/
def decodeRecords : Nat → List Nat → Option (List UserRecord × List Nat)
  | 0, bs => some ([], bs)
  | k + 1, bs =>
    (decodeRecord bs).bind (fun pr =>
      (decodeRecords k pr.2).bind (fun ps => some (pr.1 :: ps.1, ps.2)))

/-- Concatenation of the schemaless encodings of a batch of records. -/
def recordsData (recs : List UserRecord) : List Nat :=
  (recs.map encodeRecord).flatten

/-- Modelled from the spec: the BlockFramer (spec 4.3): zigzag-varint count,
zigzag-varint byte size of the concatenated record data, the data, then the
16-byte synchronization marker verbatim. -/
def frameBlock (marker : List Nat) (recs : List UserRecord) : List Nat :=
  ezv (recs.length : Int) ++ ezv ((recordsData recs).length : Int) ++ recordsData recs ++ marker

/-- The Avro object-container magic, `"Obj" + 0x01`. -/
def MAGIC : List Nat := [0x4F, 0x62, 0x6A, 0x01]

/-- Modelled from the spec: one metadata map entry, a length-prefixed key
then a length-prefixed value (spec 6, header encoding). -/
def metaPairBytes (p : List Nat × List Nat) : List Nat :=
  ezv (p.1.length : Int) ++ p.1 ++ ezv (p.2.length : Int) ++ p.2

/-- Modelled from the spec: the Avro map encoding of the metadata — a
zigzag-varint entry count, the entries, terminated by a zero-count block. -/
def metaMapBytes (meta : List (List Nat × List Nat)) : List Nat :=
  (if meta.isEmpty then [] else ezv (meta.length : Int) ++ (meta.map metaPairBytes).flatten) ++
    ezv 0

/-- Modelled from the spec: the container header — magic, metadata map,
16-byte synchronization marker (spec 4.4 writeHeader and spec 6). -/
def writeHeader (meta : List (List Nat × List Nat)) (marker : List Nat) : List Nat :=
  MAGIC ++ metaMapBytes meta ++ marker

/-- Modelled from the spec: `writeAll` (spec 4.4) — header followed by the
given partition of the records, each flushed as one framed block in input
order.  The partition parameter is the granularity policy. -/
def writeAll (meta : List (List Nat × List Nat)) (marker : List Nat)
    (blockss : List (List UserRecord)) : List Nat :=
  writeHeader meta marker ++ (blockss.map (frameBlock marker)).flatten

/-- Modelled from the spec: the ContainerReader block loop (spec 4.6):
repeatedly read `(count, size)`, consume exactly `size` bytes of record
data and the 16-byte marker, decode `count` records; end-of-input at a
block boundary is the only non-error termination.  Advancing uses counts
and sizes only (lenient reader), per spec 9. -/
def readBlocks (fuel : Nat) (bs : List Nat) : Option (List UserRecord) :=
  match fuel, bs with
  | _, [] => some []
  | 0, _ :: _ => none
  | fuel + 1, b :: tl =>
    (zv_decode (b :: tl)).bind (fun pc =>
      (zv_decode pc.2).bind (fun ps =>
        if 0 ≤ pc.1 ∧ 0 ≤ ps.1 ∧ ps.1.toNat + 16 ≤ ps.2.length then
          (decodeRecords pc.1.toNat (ps.2.take ps.1.toNat)).bind (fun pr =>
            (readBlocks fuel ((ps.2.drop ps.1.toNat).drop 16)).bind (fun more =>
              some (pr.1 ++ more)))
        else none))

/-- Modelled from the spec: skip `n` metadata map entries. -/
def skipMetaPairs : Nat → List Nat → Option (List Nat)
  | 0, bs => some bs
  | k + 1, bs =>
    (zv_decode bs).bind (fun pk =>
      if 0 ≤ pk.1 ∧ pk.1.toNat ≤ pk.2.length then
        (zv_decode (pk.2.drop pk.1.toNat)).bind (fun pv =>
          if 0 ≤ pv.1 ∧ pv.1.toNat ≤ pv.2.length then
            skipMetaPairs k (pv.2.drop pv.1.toNat)
          else none)
      else none)

/-- Modelled from the spec: skip the metadata map, reading count-prefixed
entry blocks until the zero-count terminator. -/
def skipMetaMap (fuel : Nat) (bs : List Nat) : Option (List Nat) :=
  match fuel with
  | 0 => none
  | fuel + 1 =>
    (zv_decode bs).bind (fun pc =>
      if pc.1 = 0 then some pc.2
      else if 0 < pc.1 then
        (skipMetaPairs pc.1.toNat pc.2).bind (fun r2 => skipMetaMap fuel r2)
      else none)

/-- Modelled from the spec: parse the container header — check the magic,
skip the metadata map, extract the 16-byte marker; returns the marker and
the remaining (block) bytes. -/
def readHeader (bs : List Nat) : Option (List Nat × List Nat) :=
  if bs.take 4 = MAGIC then
    (skipMetaMap (bs.length + 1) (bs.drop 4)).bind (fun r1 =>
      if 16 ≤ r1.length then some (r1.take 16, r1.drop 16) else none)
  else none

/-- Modelled from the spec: the full ContainerReader — header then blocks,
returning the decoded records of every block in order. -/
def readContainer (bs : List Nat) : Option (List UserRecord) :=
  (readHeader bs).bind (fun pr => readBlocks pr.2.length pr.2)

/-- Modelled from the spec: parse the block structure and collect the
trailing 16-byte marker of every block (for the marker invariant). -/
def readBlockMarkers (fuel : Nat) (bs : List Nat) : Option (List (List Nat)) :=
  match fuel, bs with
  | _, [] => some []
  | 0, _ :: _ => none
  | fuel + 1, b :: tl =>
    (zv_decode (b :: tl)).bind (fun pc =>
      (zv_decode pc.2).bind (fun ps =>
        if 0 ≤ ps.1 ∧ ps.1.toNat + 16 ≤ ps.2.length then
          (readBlockMarkers fuel ((ps.2.drop ps.1.toNat).drop 16)).bind (fun ms =>
            some ((ps.2.drop ps.1.toNat).take 16 :: ms))
        else none))

/-- Modelled from the spec: the header marker of a container file together
with every per-block trailing marker. -/
def fileMarkers (bs : List Nat) : Option (List Nat × List (List Nat)) :=
  (readHeader bs).bind (fun pr =>
    (readBlockMarkers pr.2.length pr.2).bind (fun ms => some (pr.1, ms)))

/-- From `src/main.py` `write()`: `marker = b"0123456789abcdef"` (ASCII). -/
def SYNC_MARKER : List Nat :=
  [48, 49, 50, 51, 52, 53, 54, 55, 56, 57, 97, 98, 99, 100, 101, 102]

/-- A sequential `out.write(bs)` on a file handle holding `handle` bytes. -/
def pyWrite (handle bs : List Nat) : List Nat := handle ++ bs

/-- From `src/main.py` lines 97-106: the loop writing each schemaless record
encoding into the `io.BytesIO` buffer. -/
def fakeBuf (records : List UserRecord) : List Nat :=
  records.foldl (fun b r => pyWrite b (encodeRecord r)) []

/-- From `src/main.py` lines 92-124 (the `.fake.avro` path after the header):
write the zigzag-varint record count, the zigzag-varint byte size of the
buffer, the buffer, then the 16-byte marker, each via `out.write` on a
handle already holding `handle` bytes. -/
def fakeBlockAppend (handle : List Nat) (records : List UserRecord)
    (marker : List Nat) : Option (List Nat) :=
  (encode_zigzag_varint (records.length : Int)).bind (fun countBytes =>
    (encode_zigzag_varint ((fakeBuf records).length : Int)).bind (fun sizeBytes =>
      some (pyWrite (pyWrite (pyWrite (pyWrite handle countBytes) sizeBytes)
        (fakeBuf records)) marker)))

/-- The action `main` selects. -/
inductive MainAction where
  | writeFiles (name : String)
  | readFile (name : String)
deriving DecidableEq

/-- From `src/main.py` `main(args)`: with arguments, read the first one;
with none, write files named by the current ISO-8601 timestamp. -/
def main_dispatch (nowIso : String) (args : List String) : MainAction :=
  match args with
  | [] => MainAction.writeFiles nowIso
  | a :: _ => MainAction.readFile a

/-- From `src/main.py` `write(name)`: the four files opened, in order. -/
def write_filenames (name : String) : List String :=
  [name ++ ".real.avro", name ++ ".fake.avro", name ++ ".priv.avro", name ++ ".buff.avro"]

/-- Avro primitive types appearing in the module-level schema. -/
inductive AvroType where
  | string
  | int
  | null
deriving DecidableEq

/-- A field type: a single primitive or a positional union. -/
inductive FieldSchema where
  | simple (t : AvroType)
  | union (ts : List AvroType)
deriving DecidableEq

/-- From `src/main.py` `SCHEMA`: the module-level `User` record schema. -/
def SCHEMA_fields : List (String × FieldSchema) :=
  [("name", FieldSchema.simple AvroType.string),
   ("favorite_number", FieldSchema.union [AvroType.int, AvroType.null]),
   ("favorite_color", FieldSchema.union [AvroType.string, AvroType.null])]

/-- From `src/main.py` `read(name)`: the reader schema passed to
`fastavro.reader` is always `parse_schema(SCHEMA)`, whatever file is named. -/
def read_reader_schema (fileName : String) : List (String × FieldSchema) :=
  SCHEMA_fields

/-- From `src/main.py` `read(name)`: each decoded record is printed in
order, so the printed sequence is the reader output. -/
def printedRecords (file : List Nat) : Option (List UserRecord) :=
  readContainer file

/-- Representability bounds for one record (signed 64-bit lengths/values). -/
def wfRecord (r : UserRecord) : Prop :=
  r.name.length < 2 ^ 63 ∧
  (∀ v, r.favorite_number = some v → -(2 ^ 63) ≤ v ∧ v < 2 ^ 63) ∧
  (∀ s, r.favorite_color = some s → s.length < 2 ^ 63)

/-- Representability bounds for one block. -/
def wfBlock (recs : List UserRecord) : Prop :=
  recs.length < 2 ^ 63 ∧ (recordsData recs).length < 2 ^ 63 ∧ ∀ r ∈ recs, wfRecord r

/-- Representability bounds for the metadata. -/
def wfMeta (meta : List (List Nat × List Nat)) : Prop :=
  meta.length < 2 ^ 63 ∧ ∀ p ∈ meta, p.1.length < 2 ^ 63 ∧ p.2.length < 2 ^ 63

-- ## Supporting lemmas on the integer codec

theorem int_xor_zero (x : Int) : Int.xor x 0 = x := by
  cases x <;> simp [Int.xor]

theorem int_shiftLeft_one_ofNat (m : Nat) :
    ((m : Nat) : Int) <<< (1 : Int) = ((2 * m : Nat) : Int) := by
  have h : ((m : Nat) : Int) <<< (((1 : Nat) : Int)) = ((m : Nat) : Int) * ((2 ^ 1 : Nat) : Int) :=
    Int.shiftLeft_eq_mul_pow _ _
  have h2 : ((1 : Nat) : Int) = (1 : Int) := by norm_num
  rw [h2] at h
  rw [h]
  push_cast
  ring

theorem int_shiftLeft_one_negSucc (m : Nat) :
    (Int.negSucc m) <<< (1 : Int) = Int.negSucc (2 * m + 1) := by
  have h : (Int.negSucc m) <<< (((1 : Nat) : Int)) = Int.negSucc (Nat.shiftLeft' true m 1) :=
    Int.shiftLeft_negSucc m 1
  have h2 : ((1 : Nat) : Int) = (1 : Int) := by norm_num
  rw [h2] at h
  rw [h]
  have h3 : Nat.shiftLeft' true m 1 = 2 * m + 1 := by
    simp [Nat.shiftLeft', Nat.bit]
  rw [h3]

theorem zigzag_encode_ofNat (m : Nat) :
    zigzag_encode ((m : Nat) : Int) = ((2 * m : Nat) : Int) := by
  unfold zigzag_encode
  rw [if_neg (by omega), int_xor_zero, int_shiftLeft_one_ofNat]

theorem zigzag_encode_negSucc (m : Nat) :
    zigzag_encode (Int.negSucc m) = (((2 * m + 1) ^^^ (m >>> 63) : Nat) : Int) := by
  unfold zigzag_encode
  have hneg : Int.negSucc m < 0 := by
    rw [Int.negSucc_eq]
    omega
  rw [if_pos hneg, int_shiftLeft_one_negSucc]
  have hsr : (Int.negSucc m) >>> (63 : Int) = Int.negSucc (m >>> 63) := by
    have := Int.shiftRight_negSucc m 63
    have h63 : ((63 : Nat) : Int) = (63 : Int) := by norm_num
    rw [h63] at this
    exact this
  rw [hsr]
  simp [Int.xor]

theorem zigzag_encode_nonneg (n : Int) : 0 ≤ zigzag_encode n := by
  cases n with
  | ofNat m =>
    rw [Int.ofNat_eq_natCast, zigzag_encode_ofNat]
    exact Int.natCast_nonneg _
  | negSucc m =>
    rw [zigzag_encode_negSucc]
    exact Int.natCast_nonneg _

theorem zigzag_encode_eq_ite (n : Int) (hlo : -(2 ^ 63) ≤ n) (hhi : n < 2 ^ 63) :
    zigzag_encode n = (if 0 ≤ n then 2 * n else -2 * n - 1) := by
  cases n with
  | ofNat m =>
    rw [Int.ofNat_eq_natCast, zigzag_encode_ofNat, if_pos (Int.natCast_nonneg m)]
    push_cast
    ring
  | negSucc m =>
    have hm : m < 2 ^ 63 := by
      rw [Int.negSucc_eq] at hlo
      omega
    have hsr : m >>> 63 = 0 := by
      rw [Nat.shiftRight_eq_div_pow]
      exact Nat.div_eq_of_lt hm
    rw [zigzag_encode_negSucc, hsr, Nat.xor_zero,
      if_neg (by rw [Int.negSucc_eq]; omega), Int.negSucc_eq]
    push_cast
    ring

theorem zigzag_encode_lt (n : Int) (hlo : -(2 ^ 63) ≤ n) (hhi : n < 2 ^ 63) :
    zigzag_encode n < 2 ^ 64 := by
  rw [zigzag_encode_eq_ite n hlo hhi]
  by_cases h : 0 ≤ n
  · rw [if_pos h]
    omega
  · rw [if_neg h]
    omega

-- ## C2: characterisation of zigzag encoding

/-- C2: for every signed 64-bit integer `n` (including `-2^63`),
`zigzag_encode n` is `2*n` for `n ≥ 0` and `-2*n - 1` for `n < 0`, hence
`0→0`, `-1→1`, `1→2`, `-2→3`, and the result lies in `[0, 2^64)`. -/
theorem zigzag_encode_spec (n : Int) (hlo : -(2 ^ 63) ≤ n) (hhi : n < 2 ^ 63) :
    zigzag_encode n = (if 0 ≤ n then 2 * n else -2 * n - 1) ∧
    0 ≤ zigzag_encode n ∧ zigzag_encode n < 2 ^ 64 ∧
    zigzag_encode 0 = 0 ∧ zigzag_encode (-1) = 1 ∧
    zigzag_encode 1 = 2 ∧ zigzag_encode (-2) = 3 :=
  ⟨zigzag_encode_eq_ite n hlo hhi, zigzag_encode_nonneg n, zigzag_encode_lt n hlo hhi,
    by decide, by decide, by decide, by decide⟩

/-- Witness for C2 at the minimum signed 64-bit value. -/
theorem zigzag_encode_spec_witness :
    zigzag_encode (-(2 ^ 63)) = (if 0 ≤ (-(2 ^ 63) : Int) then 2 * -(2 ^ 63) else -2 * -(2 ^ 63) - 1) ∧
    0 ≤ zigzag_encode (-(2 ^ 63)) ∧ zigzag_encode (-(2 ^ 63)) < 2 ^ 64 ∧
    zigzag_encode 0 = 0 ∧ zigzag_encode (-1) = 1 ∧
    zigzag_encode 1 = 2 ∧ zigzag_encode (-2) = 3 :=
  zigzag_encode_spec (-(2 ^ 63)) (by norm_num) (by norm_num)

-- ## Supporting lemmas on varint encoding

theorem int_land_127 (u : Nat) :
    Int.land ((u : Nat) : Int) 0x7F = (((u &&& 127) : Nat) : Int) := rfl

theorem int_lor_128 (a : Nat) :
    Int.lor ((a : Nat) : Int) 0x80 = (((a ||| 128) : Nat) : Int) := rfl

theorem or_128_eq_add (a : Nat) (h : a < 128) : a ||| 128 = a + 128 := by
  have hball : ∀ a < 128, a ||| 128 = a + 128 := by decide
  exact hball a h

theorem and_127_eq_mod (u : Nat) : u &&& 127 = u % 128 := by
  have h : u &&& (2 ^ 7 - 1) = u % 2 ^ 7 := Nat.and_pow_two_sub_one_eq_mod u 7
  norm_num at h
  exact h

theorem int_byte_eq (u : Nat) :
    Int.lor (Int.land ((u : Nat) : Int) 0x7F) 0x80 = ((u % 128 + 128 : Nat) : Int) := by
  rw [int_land_127, int_lor_128, and_127_eq_mod,
    or_128_eq_add _ (Nat.mod_lt _ (by norm_num))]

theorem int_shiftRight_seven (u : Nat) :
    ((u : Nat) : Int) >>> (7 : Int) = ((u / 128 : Nat) : Int) := by
  have h : ((u : Nat) : Int) >>> (((7 : Nat)) : Int) = (((u >>> 7) : Nat) : Int) :=
    Int.shiftRight_coe_nat u 7
  have h7 : (((7 : Nat)) : Int) = (7 : Int) := by norm_num
  rw [h7] at h
  rw [h, Nat.shiftRight_eq_div_pow]

theorem varintNatAux_fuel_invariant (u : Nat) :
    ∀ f g, u ≤ f → u ≤ g → varintNatAux f u = varintNatAux g u := by
  induction u using Nat.strong_induction_on with
  | _ u ih =>
    intro f g hf hg
    by_cases hu : 127 < u
    · obtain ⟨a, rfl⟩ : ∃ a, f = a + 1 := ⟨f - 1, by omega⟩
      obtain ⟨b, rfl⟩ : ∃ b, g = b + 1 := ⟨g - 1, by omega⟩
      rw [varintNatAux, varintNatAux, if_pos hu, if_pos hu]
      have hlt : u / 128 < u := Nat.div_lt_self (by omega) (by norm_num)
      rw [ih (u / 128) hlt a (u / 128) (by omega) (le_refl _),
        ih (u / 128) hlt b (u / 128) (by omega) (le_refl _)]
    · cases f with
      | zero => cases g with
        | zero => rfl
        | succ b => rw [varintNatAux, varintNatAux, if_neg hu]
      | succ a => cases g with
        | zero => rw [varintNatAux, varintNatAux, if_neg hu]
        | succ b => rw [varintNatAux, varintNatAux, if_neg hu, if_neg hu]

theorem varintNat_eq_of_le (u : Nat) (h : u ≤ 127) : varintNat u = [u] := by
  unfold varintNat
  cases hu : u with
  | zero => rfl
  | succ k =>
    rw [varintNatAux, if_neg (by omega)]

theorem varintNat_eq_of_gt (u : Nat) (h : 127 < u) :
    varintNat u = (u % 128 + 128) :: varintNat (u / 128) := by
  unfold varintNat
  obtain ⟨a, ha⟩ : ∃ a, u = a + 1 := ⟨u - 1, by omega⟩
  conv_lhs => rw [ha]
  rw [varintNatAux, if_pos (by omega)]
  rw [← ha]
  rw [varintNatAux_fuel_invariant (u / 128)
    a (u / 128) (by omega) (le_refl _)]

theorem varint_encode_ofNat (u : Nat) :
    varint_encode ((u : Nat) : Int) = some (varintNat u) := by
  induction u using Nat.strong_induction_on with
  | _ u ih =>
    rw [varint_encode]
    by_cases hu : 127 < u
    · rw [dif_pos (by exact_mod_cast hu : (0x7F : Int) < ((u : Nat) : Int))]
      have hb := int_byte_eq u
      simp only [hb]
      rw [if_pos (by constructor <;> [positivity; exact_mod_cast (by omega : u % 128 + 128 ≤ 255)])]
      rw [int_shiftRight_seven, ih (u / 128) (Nat.div_lt_self (by omega) (by norm_num))]
      rw [varintNat_eq_of_gt u hu]
      simp only [Option.map_some', Int.toNat_natCast]
    · rw [dif_neg (by exact_mod_cast hu)]
      rw [if_pos (by constructor <;> [positivity; exact_mod_cast (by omega : u ≤ 255)])]
      rw [varintNat_eq_of_le u (by omega)]
      simp only [Int.toNat_natCast]

theorem varint_encode_neg (value : Int) (h : value < 0) : varint_encode value = none := by
  rw [varint_encode]
  rw [dif_neg (by omega)]
  rw [if_neg (by omega)]

theorem encode_zigzag_varint_eq (n : Int) : encode_zigzag_varint n = some (ezv n) := by
  unfold encode_zigzag_varint ezv
  have h := zigzag_encode_nonneg n
  have h2 : zigzag_encode n = (((zigzag_encode n).toNat : Nat) : Int) :=
    (Int.toNat_of_nonneg h).symm
  rw [h2, varint_encode_ofNat, Int.toNat_natCast]

theorem varintNat_ne_nil (u : Nat) : varintNat u ≠ [] := by
  by_cases hu : 127 < u
  · rw [varintNat_eq_of_gt u hu]
    simp
  · rw [varintNat_eq_of_le u (by omega)]
    simp

theorem groupsValue_cons (b : Nat) (bs : List Nat) :
    groupsValue (b :: bs) = (b &&& 0x7F) + 128 * groupsValue bs := rfl

theorem groupsValue_varintNat (u : Nat) : groupsValue (varintNat u) = u := by
  induction u using Nat.strong_induction_on with
  | _ u ih =>
    by_cases hu : 127 < u
    · rw [varintNat_eq_of_gt u hu, groupsValue_cons,
        ih (u / 128) (Nat.div_lt_self (by omega) (by norm_num))]
      have h1 : (u % 128 + 128) &&& 127 = u % 128 := by
        rw [and_127_eq_mod]
        omega
      rw [h1]
      omega
    · rw [varintNat_eq_of_le u (by omega), groupsValue_cons]
      have h1 : u &&& 127 = u := by
        rw [and_127_eq_mod]
        omega
      simp [groupsValue, h1]

theorem varintNat_continuation (u : Nat) :
    ∀ i, i + 1 < (varintNat u).length → 128 ≤ (varintNat u).getD i 0 := by
  induction u using Nat.strong_induction_on with
  | _ u ih =>
    intro i hi
    by_cases hu : 127 < u
    · rw [varintNat_eq_of_gt u hu] at hi ⊢
      cases i with
      | zero => simp
      | succ k =>
        rw [List.getD_cons_succ]
        exact ih (u / 128) (Nat.div_lt_self (by omega) (by norm_num)) k
          (by simpa using hi)
    · rw [varintNat_eq_of_le u (by omega)] at hi
      simp at hi

theorem varintNat_last (u : Nat) :
    (varintNat u).getD ((varintNat u).length - 1) 0 < 128 := by
  induction u using Nat.strong_induction_on with
  | _ u ih =>
    by_cases hu : 127 < u
    · rw [varintNat_eq_of_gt u hu]
      have hne := varintNat_ne_nil (u / 128)
      have hlen : 1 ≤ (varintNat (u / 128)).length := by
        cases h : varintNat (u / 128) with
        | nil => exact absurd h hne
        | cons a l => simp
      have hstep : ((u % 128 + 128) :: varintNat (u / 128)).length - 1
          = ((varintNat (u / 128)).length - 1) + 1 := by
        simp only [List.length_cons]
        omega
      rw [hstep, List.getD_cons_succ]
      exact ih (u / 128) (Nat.div_lt_self (by omega) (by norm_num))
    · rw [varintNat_eq_of_le u (by omega)]
      simpa using by omega

theorem varintNat_minimal (u : Nat) :
    (u ≠ 0 → 128 ^ ((varintNat u).length - 1) ≤ u) ∧ u < 128 ^ (varintNat u).length := by
  induction u using Nat.strong_induction_on with
  | _ u ih =>
    by_cases hu : 127 < u
    · obtain ⟨ih1, ih2⟩ := ih (u / 128) (Nat.div_lt_self (by omega) (by norm_num))
      have hq : u / 128 ≠ 0 := by
        intro h0
        omega
      have hq1 := ih1 hq
      rw [varintNat_eq_of_gt u hu]
      have hne := varintNat_ne_nil (u / 128)
      have hlen : 1 ≤ (varintNat (u / 128)).length := by
        cases h : varintNat (u / 128) with
        | nil => exact absurd h hne
        | cons a l => simp
      constructor
      · intro _
        have hstep : ((u % 128 + 128) :: varintNat (u / 128)).length - 1
            = ((varintNat (u / 128)).length - 1) + 1 := by
          simp only [List.length_cons]
          omega
        rw [hstep, pow_succ]
        calc 128 ^ ((varintNat (u / 128)).length - 1) * 128 ≤ (u / 128) * 128 :=
              Nat.mul_le_mul_right 128 hq1
          _ ≤ u := by omega
      · have hstep : ((u % 128 + 128) :: varintNat (u / 128)).length
            = (varintNat (u / 128)).length + 1 := by simp
        rw [hstep, pow_succ]
        have : u / 128 + 1 ≤ 128 ^ (varintNat (u / 128)).length := ih2
        calc u < (u / 128 + 1) * 128 := by omega
          _ ≤ 128 ^ (varintNat (u / 128)).length * 128 := Nat.mul_le_mul_right 128 this
    · rw [varintNat_eq_of_le u (by omega)]
      constructor
      · intro _
        simpa using by omega
      · simpa using by omega

theorem varintNat_length_le (u k : Nat) (hk : 1 ≤ k) (h : u < 128 ^ k) :
    (varintNat u).length ≤ k := by
  obtain ⟨hmin, _⟩ := varintNat_minimal u
  by_cases h0 : u = 0
  · subst h0
    rw [varintNat_eq_of_le 0 (by omega)]
    simpa using hk
  · have hle := hmin h0
    by_contra hgt
    have hk2 : k ≤ (varintNat u).length - 1 := by omega
    have : 128 ^ k ≤ 128 ^ ((varintNat u).length - 1) :=
      Nat.pow_le_pow_right (by norm_num) hk2
    omega

theorem varintNat_length_le_ten (u : Nat) (h : u < 2 ^ 64) : (varintNat u).length ≤ 10 := by
  apply varintNat_length_le u 10 (by norm_num)
  calc u < 2 ^ 64 := h
    _ ≤ 128 ^ 10 := by norm_num

theorem varintDecodeAux_varintNat (u : Nat) :
    ∀ maxB rest, (varintNat u).length ≤ maxB →
      varintDecodeAux maxB (varintNat u ++ rest) = some (u, rest) := by
  induction u using Nat.strong_induction_on with
  | _ u ih =>
    intro maxB rest hlen
    by_cases hu : 127 < u
    · rw [varintNat_eq_of_gt u hu] at hlen ⊢
      simp only [List.length_cons] at hlen
      obtain ⟨m, rfl⟩ : ∃ m, maxB = m + 1 := ⟨maxB - 1, by omega⟩
      rw [List.cons_append, varintDecodeAux]
      have hcont : (u % 128 + 128) &&& 0x80 ≠ 0 := by
        have hball : ∀ a < 128, (a + 128) &&& 128 = 128 := by decide
        have := hball (u % 128) (Nat.mod_lt _ (by norm_num))
        omega
      rw [if_neg hcont]
      rw [ih (u / 128) (Nat.div_lt_self (by omega) (by norm_num)) m rest (by omega)]
      have hpay : (u % 128 + 128) &&& 0x7F = u % 128 := by
        rw [and_127_eq_mod]
        omega
      rw [hpay]
      show some (u % 128 + 128 * (u / 128), rest) = some (u, rest)
      have : u % 128 + 128 * (u / 128) = u := by omega
      rw [this]
    · rw [varintNat_eq_of_le u (by omega)] at hlen ⊢
      simp only [List.length_cons] at hlen
      obtain ⟨m, rfl⟩ : ∃ m, maxB = m + 1 := ⟨maxB - 1, by omega⟩
      rw [List.cons_append, List.nil_append, varintDecodeAux]
      have hterm : u &&& 0x80 = 0 := by
        have hball : ∀ a < 128, a &&& 128 = 0 := by decide
        exact hball u (by omega)
      rw [if_pos hterm]
      have hpay : u &&& 0x7F = u := by
        rw [and_127_eq_mod]
        omega
      rw [hpay]

theorem varint_decode_varintNat (u : Nat) (h : u < 2 ^ 64) (rest : List Nat) :
    varint_decode (varintNat u ++ rest) = some (u, rest) :=
  varintDecodeAux_varintNat u 10 rest (varintNat_length_le_ten u h)

theorem zigzag_decode_encode (n : Int) (hlo : -(2 ^ 63) ≤ n) (hhi : n < 2 ^ 63) :
    zigzag_decode (zigzag_encode n).toNat = n := by
  cases n with
  | ofNat m =>
    rw [Int.ofNat_eq_natCast, zigzag_encode_ofNat, Int.toNat_natCast]
    unfold zigzag_decode
    rw [if_pos (by omega)]
    have : 2 * m / 2 = m := by omega
    rw [this]
  | negSucc m =>
    have hm : m < 2 ^ 63 := by
      rw [Int.negSucc_eq] at hlo
      omega
    have hsr : m >>> 63 = 0 := by
      rw [Nat.shiftRight_eq_div_pow]
      exact Nat.div_eq_of_lt hm
    rw [zigzag_encode_negSucc, hsr, Nat.xor_zero, Int.toNat_natCast]
    unfold zigzag_decode
    rw [if_neg (by omega)]
    have : (2 * m + 1) / 2 = m := by omega
    rw [this, Int.negSucc_eq]
    ring

theorem ezv_length_le_ten (n : Int) (hlo : -(2 ^ 63) ≤ n) (hhi : n < 2 ^ 63) :
    (ezv n).length ≤ 10 := by
  apply varintNat_length_le_ten
  have h1 := zigzag_encode_lt n hlo hhi
  have h2 := zigzag_encode_nonneg n
  omega

theorem zv_decode_ezv (n : Int) (hlo : -(2 ^ 63) ≤ n) (hhi : n < 2 ^ 63) (rest : List Nat) :
    zv_decode (ezv n ++ rest) = some (n, rest) := by
  unfold zv_decode ezv
  have h1 := zigzag_encode_lt n hlo hhi
  have h2 := zigzag_encode_nonneg n
  rw [varint_decode_varintNat (zigzag_encode n).toNat (by omega) rest, Option.some_bind]
  show some (zigzag_decode (zigzag_encode n).toNat, rest) = some (n, rest)
  rw [zigzag_decode_encode n hlo hhi]

-- ## C3: varint encoding structure and minimality

/-- C3: on every unsigned value `u`, `varint_encode` succeeds and emits `u`
in 7-bit groups, low-order group first, with the continuation bit set on
every byte but the last; the output is minimal-length, and
`varint_encode 0 = [0x00]`, `varint_encode 127 = [0x7F]`,
`varint_encode 128 = [0x80, 0x01]`. -/
theorem varint_encode_structure (u : Nat) :
    varint_encode ((u : Nat) : Int) = some (varintNat u) ∧
    groupsValue (varintNat u) = u ∧
    (∀ i, i + 1 < (varintNat u).length → 128 ≤ (varintNat u).getD i 0) ∧
    (varintNat u).getD ((varintNat u).length - 1) 0 < 128 ∧
    (u ≠ 0 → 128 ^ ((varintNat u).length - 1) ≤ u) ∧
    u < 128 ^ (varintNat u).length ∧
    varint_encode 0 = some [0x00] ∧ varint_encode 127 = some [0x7F] ∧
    varint_encode 128 = some [0x80, 0x01] :=
  ⟨varint_encode_ofNat u, groupsValue_varintNat u, varintNat_continuation u,
    varintNat_last u, (varintNat_minimal u).1, (varintNat_minimal u).2,
    by simpa using varint_encode_ofNat 0,
    by simpa using varint_encode_ofNat 127,
    by simpa using varint_encode_ofNat 128⟩

/-- Witness for C3 at `u = 128` (two bytes, continuation bit on the first). -/
theorem varint_encode_structure_witness :
    128 ≤ (varintNat 128).getD 0 0 ∧ 128 ^ ((varintNat 128).length - 1) ≤ 128 :=
  ⟨(varint_encode_structure 128).2.2.1 0 (by decide),
    (varint_encode_structure 128).2.2.2.2.1 (by decide)⟩

-- ## C9: zigzag output is non-negative, so the composed encoder never fails

/-- C9: `zigzag_encode` is non-negative on every integer, so
`encode_zigzag_varint` always returns bytes (the byte-append error in
`varint_encode` is unreachable through it), while calling `varint_encode`
directly on a negative integer errors (`none`). -/
theorem zigzag_nonneg_safety :
    (∀ n : Int, 0 ≤ zigzag_encode n) ∧
    (∀ n : Int, encode_zigzag_varint n = some (ezv n)) ∧
    (∀ n : Int, n < 0 → varint_encode n = none) :=
  ⟨zigzag_encode_nonneg, encode_zigzag_varint_eq, fun n hn => varint_encode_neg n hn⟩

/-- Witness for C9 at `n = -7`. -/
theorem zigzag_nonneg_safety_witness :
    0 ≤ zigzag_encode (-7) ∧ encode_zigzag_varint (-7) = some (ezv (-7)) ∧
    varint_encode (-7) = none :=
  ⟨zigzag_nonneg_safety.1 (-7), zigzag_nonneg_safety.2.1 (-7),
    zigzag_nonneg_safety.2.2 (-7) (by norm_num)⟩

-- ## C4: zigzag-varint round-trip and injectivity

/-- C4: decoding the bytes of `encode_zigzag_varint n` — 7-bit groups
little-endian up to a clear continuation bit, then the zigzag inverse —
recovers `n` exactly for every signed 64-bit `n`, and the encoder is
injective on that range. -/
theorem encode_zigzag_varint_roundtrip (n : Int) (hlo : -(2 ^ 63) ≤ n) (hhi : n < 2 ^ 63) :
    (∃ bs, encode_zigzag_varint n = some bs ∧ zv_decode bs = some (n, []) ∧
      varint_decode bs = some ((zigzag_encode n).toNat, []) ∧
      zigzag_decode (zigzag_encode n).toNat = n) ∧
    (∀ m : Int, -(2 ^ 63) ≤ m → m < 2 ^ 63 →
      encode_zigzag_varint m = encode_zigzag_varint n → m = n) := by
  constructor
  · refine ⟨ezv n, encode_zigzag_varint_eq n, ?_, ?_, zigzag_decode_encode n hlo hhi⟩
    · have h := zv_decode_ezv n hlo hhi []
      rwa [List.append_nil] at h
    · have h1 := zigzag_encode_lt n hlo hhi
      have h2 := zigzag_encode_nonneg n
      have h := varint_decode_varintNat (zigzag_encode n).toNat (by omega) []
      unfold ezv
      rwa [List.append_nil] at h
  · intro m hmlo hmhi heq
    rw [encode_zigzag_varint_eq m, encode_zigzag_varint_eq n] at heq
    have hbs : ezv m = ezv n := by
      injection heq
    have hm := zv_decode_ezv m hmlo hmhi []
    have hn := zv_decode_ezv n hlo hhi []
    rw [hbs] at hm
    rw [hm] at hn
    injection hn with hn2
    exact congrArg Prod.fst hn2

/-- Witness for C4 at the minimum signed 64-bit value. -/
theorem encode_zigzag_varint_roundtrip_witness :
    ∃ bs, encode_zigzag_varint (-(2 ^ 63)) = some bs ∧
      zv_decode bs = some (-(2 ^ 63), []) ∧
      varint_decode bs = some ((zigzag_encode (-(2 ^ 63))).toNat, []) ∧
      zigzag_decode (zigzag_encode (-(2 ^ 63))).toNat = -(2 ^ 63) :=
  (encode_zigzag_varint_roundtrip (-(2 ^ 63)) (by norm_num) (by norm_num)).1

-- ## Record encoding round-trip

theorem zv_decode_ezv_nat (len : Nat) (h : len < 2 ^ 63) (rest : List Nat) :
    zv_decode (ezv (len : Int) ++ rest) = some ((len : Int), rest) :=
  zv_decode_ezv _ (by omega) (by omega) rest

theorem decodeStringField_enc (s : List Nat) (h : s.length < 2 ^ 63) (rest : List Nat) :
    decodeStringField ((ezv (s.length : Int) ++ s) ++ rest) = some (s, rest) := by
  unfold decodeStringField
  rw [List.append_assoc]
  simp only [zv_decode_ezv_nat s.length h (s ++ rest), Option.some_bind, Int.toNat_natCast]
  rw [if_pos ⟨by omega, by simp [List.length_append]⟩]
  rw [List.take_left, List.drop_left]

theorem decodeNumberField_enc_some (v : Int) (h1 : -(2 ^ 63) ≤ v) (h2 : v < 2 ^ 63)
    (rest : List Nat) :
    decodeNumberField ((ezv 0 ++ ezv v) ++ rest) = some (some v, rest) := by
  unfold decodeNumberField
  rw [List.append_assoc]
  simp only [zv_decode_ezv 0 (by norm_num) (by norm_num) (ezv v ++ rest), Option.some_bind]
  rw [if_pos trivial]
  simp only [zv_decode_ezv v h1 h2 rest, Option.some_bind]

theorem decodeNumberField_enc_none (rest : List Nat) :
    decodeNumberField (ezv 1 ++ rest) = some (none, rest) := by
  unfold decodeNumberField
  simp only [zv_decode_ezv 1 (by norm_num) (by norm_num) rest, Option.some_bind]
  rw [if_neg (by norm_num), if_pos trivial]

theorem decodeColorField_enc_some (s : List Nat) (h : s.length < 2 ^ 63) (rest : List Nat) :
    decodeColorField ((ezv 0 ++ (ezv (s.length : Int) ++ s)) ++ rest) = some (some s, rest) := by
  unfold decodeColorField
  rw [List.append_assoc]
  simp only [zv_decode_ezv 0 (by norm_num) (by norm_num) ((ezv (s.length : Int) ++ s) ++ rest),
    Option.some_bind]
  rw [if_pos trivial]
  simp only [decodeStringField_enc s h rest, Option.some_bind]

theorem decodeColorField_enc_none (rest : List Nat) :
    decodeColorField (ezv 1 ++ rest) = some (none, rest) := by
  unfold decodeColorField
  simp only [zv_decode_ezv 1 (by norm_num) (by norm_num) rest, Option.some_bind]
  rw [if_neg (by norm_num), if_pos trivial]

theorem decodeRecord_enc (r : UserRecord) (hwf : wfRecord r) (rest : List Nat) :
    decodeRecord (encodeRecord r ++ rest) = some (r, rest) := by
  obtain ⟨hname, hnum, hcol⟩ := hwf
  unfold decodeRecord encodeRecord
  rw [List.append_assoc]
  simp only [decodeStringField_enc r.name hname _, Option.some_bind]
  rw [List.append_assoc]
  cases hn : r.favorite_number with
  | some v =>
    obtain ⟨hv1, hv2⟩ := hnum v hn
    simp only [decodeNumberField_enc_some v hv1 hv2 _, Option.some_bind]
    cases hc : r.favorite_color with
    | some s =>
      simp only [decodeColorField_enc_some s (hcol s hc) rest, Option.some_bind]
      cases r
      simp_all
    | none =>
      simp only [decodeColorField_enc_none rest, Option.some_bind]
      cases r
      simp_all
  | none =>
    simp only [decodeNumberField_enc_none _, Option.some_bind]
    cases hc : r.favorite_color with
    | some s =>
      simp only [decodeColorField_enc_some s (hcol s hc) rest, Option.some_bind]
      cases r
      simp_all
    | none =>
      simp only [decodeColorField_enc_none rest, Option.some_bind]
      cases r
      simp_all

theorem decodeRecords_enc (recs : List UserRecord) (hwf : ∀ r ∈ recs, wfRecord r)
    (rest : List Nat) :
    decodeRecords recs.length (recordsData recs ++ rest) = some (recs, rest) := by
  induction recs with
  | nil =>
    simp [decodeRecords, recordsData]
  | cons r rs ih =>
    have hdata : recordsData (r :: rs) = encodeRecord r ++ recordsData rs := by
      simp [recordsData]
    rw [List.length_cons, hdata, List.append_assoc]
    rw [decodeRecords]
    simp only [decodeRecord_enc r (hwf r (by simp)) _, Option.some_bind]
    simp only [ih (fun x hx => hwf x (by simp [hx])), Option.some_bind]

-- ## Block framing and container round-trip

theorem ezv_ne_nil (n : Int) : ezv n ≠ [] :=
  varintNat_ne_nil _

theorem ezv_length_pos (n : Int) : 1 ≤ (ezv n).length := by
  cases h : ezv n with
  | nil => exact absurd h (ezv_ne_nil n)
  | cons a l => simp

theorem frameBlock_length_pos (marker : List Nat) (recs : List UserRecord) :
    1 ≤ (frameBlock marker recs).length := by
  unfold frameBlock
  have := ezv_length_pos ((recs.length : Nat) : Int)
  simp only [List.length_append]
  omega

theorem readBlocks_nil (fuel : Nat) : readBlocks fuel [] = some [] := by
  cases fuel <;> rfl

theorem readBlocks_cons_eq (fuel : Nat) (bs : List Nat) (hne : bs ≠ []) :
    readBlocks (fuel + 1) bs =
      (zv_decode bs).bind (fun pc =>
        (zv_decode pc.2).bind (fun ps =>
          if 0 ≤ pc.1 ∧ 0 ≤ ps.1 ∧ ps.1.toNat + 16 ≤ ps.2.length then
            (decodeRecords pc.1.toNat (ps.2.take ps.1.toNat)).bind (fun pr =>
              (readBlocks fuel ((ps.2.drop ps.1.toNat).drop 16)).bind (fun more =>
                some (pr.1 ++ more)))
          else none)) := by
  cases bs with
  | nil => exact absurd rfl hne
  | cons b tl => rfl

theorem readBlocks_step (fuel : Nat) (recs : List UserRecord) (marker restBytes : List Nat)
    (hm : marker.length = 16) (hwf : wfBlock recs) :
    readBlocks (fuel + 1) (frameBlock marker recs ++ restBytes) =
      (readBlocks fuel restBytes).bind (fun more => some (recs ++ more)) := by
  obtain ⟨hc, hs, hr⟩ := hwf
  have hne : frameBlock marker recs ++ restBytes ≠ [] := by
    rw [← List.length_pos]
    have := frameBlock_length_pos marker recs
    simp only [List.length_append]
    omega
  rw [readBlocks_cons_eq fuel _ hne]
  unfold frameBlock
  rw [List.append_assoc, List.append_assoc, List.append_assoc]
  simp only [zv_decode_ezv_nat recs.length hc _, Option.some_bind]
  simp only [zv_decode_ezv_nat (recordsData recs).length hs _, Option.some_bind,
    Int.toNat_natCast]
  rw [if_pos ⟨by omega, by omega, by simp only [List.length_append]; omega⟩]
  rw [List.take_left, List.drop_left]
  have hdec : decodeRecords recs.length (recordsData recs) = some (recs, []) := by
    have h := decodeRecords_enc recs hr []
    rwa [List.append_nil] at h
  simp only [hdec, Option.some_bind]
  rw [← hm, List.drop_left]

theorem readBlocks_writeBlocks (marker : List Nat) (hm : marker.length = 16)
    (blockss : List (List UserRecord)) :
    ∀ fuel, ((blockss.map (frameBlock marker)).flatten).length ≤ fuel →
      (∀ recs ∈ blockss, wfBlock recs) →
      readBlocks fuel ((blockss.map (frameBlock marker)).flatten) = some blockss.flatten := by
  induction blockss with
  | nil =>
    intro fuel _ _
    simp only [List.map_nil, List.flatten_nil]
    rw [readBlocks_nil]
  | cons recs rest ih =>
    intro fuel hlen hwf
    have hflat : (((recs :: rest).map (frameBlock marker)).flatten : List Nat)
        = frameBlock marker recs ++ (rest.map (frameBlock marker)).flatten := by
      simp
    rw [hflat] at hlen ⊢
    have hfb := frameBlock_length_pos marker recs
    obtain ⟨f, rfl⟩ : ∃ f, fuel = f + 1 :=
      ⟨fuel - 1, by simp only [List.length_append] at hlen; omega⟩
    rw [readBlocks_step f recs marker _ hm (hwf recs (by simp))]
    rw [ih f (by simp only [List.length_append] at hlen; omega)
      (fun b hb => hwf b (by simp [hb]))]
    rw [Option.some_bind]
    simp

-- ## Header round-trip

theorem skipMetaPairs_enc (meta : List (List Nat × List Nat)) :
    ∀ rest, (∀ p ∈ meta, p.1.length < 2 ^ 63 ∧ p.2.length < 2 ^ 63) →
      skipMetaPairs meta.length ((meta.map metaPairBytes).flatten ++ rest) = some rest := by
  induction meta with
  | nil =>
    intro rest _
    simp [skipMetaPairs]
  | cons p ps ih =>
    intro rest hwf
    obtain ⟨hk, hv⟩ := hwf p (by simp)
    have hflat : (((p :: ps).map metaPairBytes).flatten : List Nat)
        = metaPairBytes p ++ (ps.map metaPairBytes).flatten := by
      simp
    rw [hflat, List.length_cons, List.append_assoc]
    rw [skipMetaPairs]
    have hmp : metaPairBytes p
        = ezv ((p.1.length : Nat) : Int) ++ p.1 ++ ezv ((p.2.length : Nat) : Int) ++ p.2 := rfl
    rw [hmp]
    simp only [List.append_assoc]
    have hzv1 := zv_decode_ezv_nat p.1.length hk
      (p.1 ++ (ezv ((p.2.length : Nat) : Int) ++ (p.2 ++ ((ps.map metaPairBytes).flatten ++ rest))))
    simp only [hzv1, Option.some_bind, Int.toNat_natCast]
    rw [if_pos ⟨by omega, by simp only [List.length_append]; omega⟩]
    rw [List.drop_left]
    have hzv2 := zv_decode_ezv_nat p.2.length hv
      (p.2 ++ ((ps.map metaPairBytes).flatten ++ rest))
    simp only [hzv2, Option.some_bind, Int.toNat_natCast]
    rw [if_pos ⟨by omega, by simp only [List.length_append]; omega⟩]
    rw [List.drop_left]
    exact ih rest (fun q hq => hwf q (by simp [hq]))

theorem skipMetaMap_enc (meta : List (List Nat × List Nat)) (hmeta : wfMeta meta)
    (fuel : Nat) (hfuel : 2 ≤ fuel) (rest : List Nat) :
    skipMetaMap fuel (metaMapBytes meta ++ rest) = some rest := by
  obtain ⟨hlen, hpairs⟩ := hmeta
  obtain ⟨f, rfl⟩ : ∃ f, fuel = f + 1 := ⟨fuel - 1, by omega⟩
  unfold metaMapBytes
  cases meta with
  | nil =>
    rw [skipMetaMap]
    simp only [List.isEmpty_nil, if_true, List.nil_append]
    simp only [zv_decode_ezv 0 (by norm_num) (by norm_num) rest, Option.some_bind]
    rw [if_pos trivial]
  | cons p ps =>
    rw [skipMetaMap]
    have hL : (p :: ps).length = ps.length + 1 := rfl
    simp only [List.isEmpty_cons, if_false, Bool.false_eq_true]
    rw [List.append_assoc, List.append_assoc]
    have hzv := zv_decode_ezv_nat (p :: ps).length (by omega)
      (((p :: ps).map metaPairBytes).flatten ++ (ezv 0 ++ rest))
    simp only [hzv, Option.some_bind, Int.toNat_natCast]
    rw [if_neg (by omega), if_pos (by omega)]
    rw [skipMetaPairs_enc (p :: ps) (ezv 0 ++ rest) hpairs, Option.some_bind]
    obtain ⟨g, rfl⟩ : ∃ g, f = g + 1 := ⟨f - 1, by omega⟩
    rw [skipMetaMap]
    simp only [zv_decode_ezv 0 (by norm_num) (by norm_num) rest, Option.some_bind]
    rw [if_pos trivial]

theorem readHeader_writeHeader (meta : List (List Nat × List Nat)) (marker body : List Nat)
    (hm : marker.length = 16) (hmeta : wfMeta meta) :
    readHeader (writeHeader meta marker ++ body) = some (marker, body) := by
  unfold readHeader writeHeader
  rw [List.append_assoc, List.append_assoc]
  have h4 : (MAGIC ++ (metaMapBytes meta ++ (marker ++ body))).take 4 = MAGIC := by
    have hlen : (4 : Nat) = MAGIC.length := rfl
    rw [hlen, List.take_left]
  rw [if_pos h4]
  have hdrop : (MAGIC ++ (metaMapBytes meta ++ (marker ++ body))).drop 4
      = metaMapBytes meta ++ (marker ++ body) := by
    have hlen : (4 : Nat) = MAGIC.length := rfl
    rw [hlen, List.drop_left]
  rw [hdrop]
  have hfuel : 2 ≤ (MAGIC ++ (metaMapBytes meta ++ (marker ++ body))).length + 1 := by
    simp only [List.length_append]
    omega
  rw [skipMetaMap_enc meta hmeta _ hfuel (marker ++ body), Option.some_bind]
  rw [if_pos (by simp only [List.length_append]; omega)]
  rw [← hm, List.take_left, List.drop_left]

theorem readContainer_writeAll (meta : List (List Nat × List Nat)) (marker : List Nat)
    (blockss : List (List UserRecord)) (hm : marker.length = 16) (hmeta : wfMeta meta)
    (hwb : ∀ recs ∈ blockss, wfBlock recs) :
    readContainer (writeAll meta marker blockss) = some blockss.flatten := by
  unfold readContainer writeAll
  rw [readHeader_writeHeader meta marker _ hm hmeta, Option.some_bind]
  exact readBlocks_writeBlocks marker hm blockss _ (le_refl _) hwb

-- ## Marker collection

theorem readBlockMarkers_nil (fuel : Nat) : readBlockMarkers fuel [] = some [] := by
  cases fuel <;> rfl

theorem readBlockMarkers_cons_eq (fuel : Nat) (bs : List Nat) (hne : bs ≠ []) :
    readBlockMarkers (fuel + 1) bs =
      (zv_decode bs).bind (fun pc =>
        (zv_decode pc.2).bind (fun ps =>
          if 0 ≤ ps.1 ∧ ps.1.toNat + 16 ≤ ps.2.length then
            (readBlockMarkers fuel ((ps.2.drop ps.1.toNat).drop 16)).bind (fun ms =>
              some ((ps.2.drop ps.1.toNat).take 16 :: ms))
          else none)) := by
  cases bs with
  | nil => exact absurd rfl hne
  | cons b tl => rfl

theorem readBlockMarkers_step (fuel : Nat) (recs : List UserRecord)
    (marker restBytes : List Nat) (hm : marker.length = 16) (hwf : wfBlock recs) :
    readBlockMarkers (fuel + 1) (frameBlock marker recs ++ restBytes) =
      (readBlockMarkers fuel restBytes).bind (fun ms => some (marker :: ms)) := by
  obtain ⟨hc, hs, _⟩ := hwf
  have hne : frameBlock marker recs ++ restBytes ≠ [] := by
    rw [← List.length_pos]
    have := frameBlock_length_pos marker recs
    simp only [List.length_append]
    omega
  rw [readBlockMarkers_cons_eq fuel _ hne]
  unfold frameBlock
  rw [List.append_assoc, List.append_assoc, List.append_assoc]
  simp only [zv_decode_ezv_nat recs.length hc _, Option.some_bind]
  simp only [zv_decode_ezv_nat (recordsData recs).length hs _, Option.some_bind,
    Int.toNat_natCast]
  rw [if_pos ⟨by omega, by simp only [List.length_append]; omega⟩]
  rw [List.drop_left]
  rw [← hm, List.drop_left, List.take_left]

theorem readBlockMarkers_writeBlocks (marker : List Nat) (hm : marker.length = 16)
    (blockss : List (List UserRecord)) :
    ∀ fuel, ((blockss.map (frameBlock marker)).flatten).length ≤ fuel →
      (∀ recs ∈ blockss, wfBlock recs) →
      readBlockMarkers fuel ((blockss.map (frameBlock marker)).flatten)
        = some (blockss.map (fun _ => marker)) := by
  induction blockss with
  | nil =>
    intro fuel _ _
    simp only [List.map_nil, List.flatten_nil]
    rw [readBlockMarkers_nil]
  | cons recs rest ih =>
    intro fuel hlen hwf
    have hflat : (((recs :: rest).map (frameBlock marker)).flatten : List Nat)
        = frameBlock marker recs ++ (rest.map (frameBlock marker)).flatten := by
      simp
    rw [hflat] at hlen ⊢
    have hfb := frameBlock_length_pos marker recs
    obtain ⟨f, rfl⟩ : ∃ f, fuel = f + 1 :=
      ⟨fuel - 1, by simp only [List.length_append] at hlen; omega⟩
    rw [readBlockMarkers_step f recs marker _ hm (hwf recs (by simp))]
    rw [ih f (by simp only [List.length_append] at hlen; omega)
      (fun b hb => hwf b (by simp [hb]))]
    rw [Option.some_bind]
    simp

theorem fileMarkers_writeAll (meta : List (List Nat × List Nat)) (marker : List Nat)
    (blockss : List (List UserRecord)) (hm : marker.length = 16) (hmeta : wfMeta meta)
    (hwb : ∀ recs ∈ blockss, wfBlock recs) :
    fileMarkers (writeAll meta marker blockss) = some (marker, blockss.map (fun _ => marker)) := by
  unfold fileMarkers writeAll
  rw [readHeader_writeHeader meta marker _ hm hmeta, Option.some_bind]
  rw [readBlockMarkers_writeBlocks marker hm blockss _ (le_refl _) hwb, Option.some_bind]

-- ## The manual append path

theorem fakeBuf_eq (records : List UserRecord) : fakeBuf records = recordsData records := by
  have hgen : ∀ acc, records.foldl (fun b r => pyWrite b (encodeRecord r)) acc
      = acc ++ recordsData records := by
    induction records with
    | nil => intro acc; simp [recordsData]
    | cons r rs ih =>
      intro acc
      rw [List.foldl_cons, ih]
      simp [recordsData, pyWrite, List.append_assoc]
  have h := hgen []
  rwa [List.nil_append] at h

theorem fakeBlockAppend_eq (handle : List Nat) (records : List UserRecord) (marker : List Nat) :
    fakeBlockAppend handle records marker =
      some (handle ++ (ezv (records.length : Int) ++ ezv ((recordsData records).length : Int)
        ++ recordsData records ++ marker)) := by
  unfold fakeBlockAppend
  simp only [encode_zigzag_varint_eq, Option.some_bind, fakeBuf_eq]
  unfold pyWrite
  simp [List.append_assoc]

theorem writeAll_nil_append (meta : List (List Nat × List Nat)) (marker : List Nat)
    (records : List UserRecord) :
    writeAll meta marker [] ++ frameBlock marker records = writeAll meta marker [records] := by
  unfold writeAll
  simp [List.append_assoc]

theorem wfRecord_mk (nm : List Nat) (v : Int) (c : List Nat)
    (h1 : nm.length < 2 ^ 63) (h2 : -(2 ^ 63) ≤ v ∧ v < 2 ^ 63) (h3 : c.length < 2 ^ 63) :
    wfRecord ⟨nm, some v, some c⟩ :=
  ⟨h1, fun w hw => by injection hw with h; subst h; exact h2,
    fun s hs => by injection hs with h; subst h; exact h3⟩

theorem wfRecord_mk_none (nm : List Nat) (h1 : nm.length < 2 ^ 63) :
    wfRecord ⟨nm, none, none⟩ :=
  ⟨h1, fun w hw => Option.noConfusion hw, fun s hs => Option.noConfusion hs⟩

-- ## C1: framing invariance and append correctness

/-- C1: a container assembled as a header plus any partition of the input
records into framed blocks decodes, under the reciprocal reader, to exactly
the input records in exactly the input order; the append-simulation file
(header written with zero records, then one manually framed block appended)
is byte-identical to the one-block partition, so all files — whatever their
block granularity — decode to the same record sequence. -/
theorem container_roundtrip (meta : List (List Nat × List Nat)) (marker : List Nat)
    (records : List UserRecord) (blockss : List (List UserRecord))
    (hm : marker.length = 16) (hmeta : wfMeta meta)
    (hpart : blockss.flatten = records) (hwb : ∀ recs ∈ blockss, wfBlock recs) :
    readContainer (writeAll meta marker blockss) = some records ∧
    writeAll meta marker [] ++ frameBlock marker records = writeAll meta marker [records] := by
  constructor
  · rw [readContainer_writeAll meta marker blockss hm hmeta hwb, hpart]
  · exact writeAll_nil_append meta marker records

/-- Witness for C1: a two-block partition of two concrete records. -/
theorem container_roundtrip_witness :
    readContainer (writeAll [([107], [118, 119])] SYNC_MARKER
        [[⟨[67, 104], some 7, some [114]⟩], [⟨[], none, none⟩]])
      = some [⟨[67, 104], some 7, some [114]⟩, ⟨[], none, none⟩] ∧
    writeAll [([107], [118, 119])] SYNC_MARKER []
        ++ frameBlock SYNC_MARKER [⟨[67, 104], some 7, some [114]⟩, ⟨[], none, none⟩]
      = writeAll [([107], [118, 119])] SYNC_MARKER
          [[⟨[67, 104], some 7, some [114]⟩, ⟨[], none, none⟩]] :=
  container_roundtrip [([107], [118, 119])] SYNC_MARKER
    [⟨[67, 104], some 7, some [114]⟩, ⟨[], none, none⟩]
    [[⟨[67, 104], some 7, some [114]⟩], [⟨[], none, none⟩]]
    (by decide)
    ⟨by norm_num, fun p hp => by
      simp only [List.mem_singleton] at hp
      subst hp
      exact ⟨by norm_num, by norm_num⟩⟩
    rfl
    (fun recs h => by
      simp only [List.mem_cons, List.not_mem_nil, or_false] at h
      rcases h with h | h <;> subst h
      · refine ⟨by norm_num, by decide, fun r hr => ?_⟩
        simp only [List.mem_singleton] at hr
        subst hr
        exact wfRecord_mk _ 7 _ (by norm_num) ⟨by norm_num, by norm_num⟩ (by norm_num)
      · refine ⟨by norm_num, by decide, fun r hr => ?_⟩
        simp only [List.mem_singleton] at hr
        subst hr
        exact wfRecord_mk_none _ (by norm_num))

-- ## C5: layout of the manually framed block

/-- C5: the block bytes the `.fake.avro` path appends after the header are
exactly, in order: the zigzag-varint record count, the zigzag-varint byte
length of the concatenation of the record schemaless encodings, that
concatenated data, and the 16-byte marker verbatim — nothing else before,
between or after. -/
theorem fake_block_layout (handle : List Nat) (records : List UserRecord) (marker : List Nat) :
    fakeBlockAppend handle records marker =
      some (handle ++ (ezv (records.length : Int) ++ ezv ((recordsData records).length : Int)
        ++ recordsData records ++ marker)) ∧
    encode_zigzag_varint (records.length : Int) = some (ezv (records.length : Int)) ∧
    recordsData records = (records.map encodeRecord).flatten :=
  ⟨fakeBlockAppend_eq handle records marker, encode_zigzag_varint_eq _, rfl⟩

-- ## C6: the append is a pure suffix, independent of existing content

/-- C6: the append path never reads or validates the existing file content:
the bytes it writes are the same whatever the handle already holds (so they
depend only on the new records and the caller-supplied marker), and every
byte that existed before the append is unchanged — the old content is a
prefix of the result. -/
theorem fake_append_frame (records : List UserRecord) (marker h1 h2 : List Nat) :
    (∃ s, fakeBlockAppend h1 records marker = some (h1 ++ s) ∧
      fakeBlockAppend h2 records marker = some (h2 ++ s)) ∧
    (fakeBlockAppend h1 records marker).map (fun f => f.take h1.length) = some h1 := by
  constructor
  · exact ⟨_, fakeBlockAppend_eq h1 records marker, fakeBlockAppend_eq h2 records marker⟩
  · rw [fakeBlockAppend_eq h1 records marker]
    simp only [Option.map_some']
    rw [List.take_left]

-- ## C7: every block marker equals the header marker

/-- C7: in every container the writer produces, the 16-byte marker trailing
each block equals the header marker, which is the fixed
`b"0123456789abcdef"`; this holds for every block of every partition
(covering the normal-write and append-simulation paths alike). -/
theorem marker_invariant (meta : List (List Nat × List Nat)) (blockss : List (List UserRecord))
    (hmeta : wfMeta meta) (hwb : ∀ recs ∈ blockss, wfBlock recs) :
    fileMarkers (writeAll meta SYNC_MARKER blockss)
      = some (SYNC_MARKER, blockss.map (fun _ => SYNC_MARKER)) ∧
    (∀ hm ms, fileMarkers (writeAll meta SYNC_MARKER blockss) = some (hm, ms) →
      hm = SYNC_MARKER ∧ ∀ m ∈ ms, m = hm) := by
  have h := fileMarkers_writeAll meta SYNC_MARKER blockss (by decide) hmeta hwb
  refine ⟨h, ?_⟩
  intro hm ms heq
  rw [h] at heq
  injection heq with h2
  have hhm : SYNC_MARKER = hm := congrArg Prod.fst h2
  have hms : blockss.map (fun _ => SYNC_MARKER) = ms := congrArg Prod.snd h2
  subst hhm
  subst hms
  refine ⟨rfl, ?_⟩
  intro m hmem
  simp only [List.mem_map] at hmem
  obtain ⟨_, _, rfl⟩ := hmem
  rfl

/-- Witness for C7: one concrete single-record block. -/
theorem marker_invariant_witness :
    fileMarkers (writeAll [] SYNC_MARKER [[⟨[65], none, none⟩]])
      = some (SYNC_MARKER, [SYNC_MARKER]) ∧
    (∀ hm ms, fileMarkers (writeAll [] SYNC_MARKER [[⟨[65], none, none⟩]]) = some (hm, ms) →
      hm = SYNC_MARKER ∧ ∀ m ∈ ms, m = hm) :=
  marker_invariant [] [[⟨[65], none, none⟩]]
    ⟨by norm_num, fun p hp => absurd hp (List.not_mem_nil p)⟩
    (fun recs h => by
      simp only [List.mem_singleton] at h
      subst h
      refine ⟨by norm_num, by decide, fun r hr => ?_⟩
      simp only [List.mem_singleton] at hr
      subst hr
      exact wfRecord_mk_none _ (by norm_num))

-- ## C8: command-line dispatch

/-- C8: with no arguments, `main` invokes the writer with the ISO-8601
timestamp as base name, producing the four format-variant files; with
arguments, it invokes the reader on the first argument, which decodes the
named file and prints each decoded record in order. -/
theorem main_behaviour :
    (∀ nowIso : String, main_dispatch nowIso [] = MainAction.writeFiles nowIso) ∧
    (∀ name : String, write_filenames name =
      [name ++ ".real.avro", name ++ ".fake.avro", name ++ ".priv.avro", name ++ ".buff.avro"]) ∧
    (∀ nowIso a args, main_dispatch nowIso (a :: args) = MainAction.readFile a) ∧
    (∀ meta marker blockss, marker.length = 16 → wfMeta meta →
      (∀ recs ∈ blockss, wfBlock recs) →
      printedRecords (writeAll meta marker blockss) = some blockss.flatten) := by
  refine ⟨fun _ => rfl, fun _ => rfl, fun _ _ _ => rfl, ?_⟩
  intro meta marker blockss hm hmeta hwb
  unfold printedRecords
  exact readContainer_writeAll meta marker blockss hm hmeta hwb

/-- Witness for C8 on an empty container. -/
theorem main_behaviour_witness :
    printedRecords (writeAll [] SYNC_MARKER []) = some [] :=
  main_behaviour.2.2.2 [] SYNC_MARKER [] (by decide)
    ⟨by norm_num, fun p hp => absurd hp (List.not_mem_nil p)⟩
    (fun recs h => absurd h (List.not_mem_nil recs))

-- ## C10: fixed reader schema, first argument only

/-- C10: the read path always uses the hard-coded module-level `User`
schema (fields `name: string`, `favorite_number: [int, null]`,
`favorite_color: [string, null]`) as the reader schema regardless of which
file is named, and `main` passes only the first command-line argument to
the reader, ignoring any further arguments. -/
theorem read_schema_fixed :
    (∀ fileName : String, read_reader_schema fileName = SCHEMA_fields) ∧
    SCHEMA_fields =
      [("name", FieldSchema.simple AvroType.string),
       ("favorite_number", FieldSchema.union [AvroType.int, AvroType.null]),
       ("favorite_color", FieldSchema.union [AvroType.string, AvroType.null])] ∧
    (∀ nowIso a args, main_dispatch nowIso (a :: args) = main_dispatch nowIso [a]) :=
  ⟨fun _ => rfl, rfl, fun _ _ _ => rfl⟩
